import Mathlib

/-!
Verification of the retrieval subsystem of the Meetbuddy repository
(`rag_utils.py` and the `/chat` handler of `app.py`): text chunking,
vector-store construction, similarity search, context assembly with
relevance filtering, and the process-wide store cache.

Python strings are modelled as `List Char` and the operations of
`rag_utils.py` are translated statement by statement.  Two third-party
components appear only through their interfaces:

* the sentence-transformer model together with `faiss.normalize_L2`
  (deterministic text-to-vector map) is an abstract parameter
  `embed : Str → List ℚ`, used both for the chunks at build time and
  for the query at search time, exactly as in the source;
* `faiss.IndexFlatIP.search` is modelled by its documented exact
  behaviour on a flat inner-product index: the `k` best inner products
  in non-increasing order (ties by smaller stored position), padded
  with index `-1` and distance `-FLT_MAX` when `k` exceeds the number
  of stored vectors.

Scores are modelled as rationals.
-/

namespace Meetbuddy

/-- A Python string: a sequence of characters. -/
abbrev Str := List Char

/-- The ASCII whitespace characters recognised by Python's `str.strip()`. -/
def pyIsSpace (c : Char) : Bool :=
  c = ' ' || c = '\t' || c = '\n' || c = '\r' || c = '\x0b' || c = '\x0c'

/-- Python `s.strip()`: remove leading and trailing whitespace. -/
def pyStrip (s : Str) : Str :=
  ((s.dropWhile pyIsSpace).reverse.dropWhile pyIsSpace).reverse

/-- Python `text.split("\n\n")`: split on non-overlapping occurrences of
the two-newline separator, leftmost first. -/
def splitNN : Str → List Str
  | [] => [[]]
  | '\n' :: '\n' :: rest => [] :: splitNN rest
  | c :: rest =>
    match splitNN rest with
    | [] => [[c]]
    | h :: t => (c :: h) :: t

/-- `[p.strip() for p in text.split('\n\n') if p.strip()]`
(line 52 of `rag_utils.py`). -/
def paragraphs (text : Str) : List Str :=
  ((splitNN text).map pyStrip).filter (fun p => !p.isEmpty)

/-- Python `s[-k:]` for a non-negative `k`; note that `s[-0:]` is the
whole string. -/
def pySliceLast (s : Str) (k : Nat) : Str :=
  if k = 0 then s else s.drop (s.length - k)

/-- The overlap seed carried from a flushed buffer into the next chunk:
`current_chunk[-overlap:] if len(current_chunk) > overlap else current_chunk`
(line 62 of `rag_utils.py`). -/
def flushSeed (overlap : Nat) (cur : Str) : Str :=
  if overlap < cur.length then pySliceLast cur overlap else cur

/-- The paragraph-accumulation loop of `RAGPipeline.chunk_text`
(lines 57–69 of `rag_utils.py`); `cur` is `current_chunk`. -/
def chunkLoop (chunk_size overlap : Nat) : List Str → Str → List Str
  | [], cur => if cur = [] then [] else [pyStrip cur]
  | p :: ps, cur =>
    if chunk_size < cur.length + p.length ∧ cur ≠ [] then
      pyStrip cur :: chunkLoop chunk_size overlap ps (flushSeed overlap cur ++ ' ' :: p)
    else
      chunkLoop chunk_size overlap ps (if cur = [] then p else cur ++ '\n' :: '\n' :: p)

/-- `RAGPipeline.chunk_text` (defaults in the source: `chunk_size = 500`,
`overlap = 50`). -/
def chunk_text (text : Str) (chunk_size overlap : Nat) : List Str :=
  if pyStrip text = [] then [] else chunkLoop chunk_size overlap (paragraphs text) []

/-- `chunkLoop`, but collecting the raw (unstripped) flushed buffers;
used to expose the provenance of the overlap seeds. -/
def chunkRaw (chunk_size overlap : Nat) : List Str → Str → List Str
  | [], cur => if cur = [] then [] else [cur]
  | p :: ps, cur =>
    if chunk_size < cur.length + p.length ∧ cur ≠ [] then
      cur :: chunkRaw chunk_size overlap ps (flushSeed overlap cur ++ ' ' :: p)
    else
      chunkRaw chunk_size overlap ps (if cur = [] then p else cur ++ '\n' :: '\n' :: p)

/-- Concatenation of paragraphs each preceded by the `"\n\n"` joiner, as
introduced by the accumulation branch of the chunking loop. -/
def nnJoin : List Str → Str
  | [] => []
  | p :: ps => '\n' :: '\n' :: (p ++ nnJoin ps)

/-- `sub` occurs contiguously inside `l`. -/
def sublistSeg {α : Type} (sub l : List α) : Prop :=
  ∃ u v, l = u ++ sub ++ v

/-- Inner product of two vectors (the metric of `faiss.IndexFlatIP`). -/
def dot : List ℚ → List ℚ → ℚ
  | a :: as, b :: bs => a * b + dot as bs
  | _, _ => 0

/-- `a` ranks no worse than `b` in the search output of the flat index:
higher score first, ties by smaller stored position. -/
def rankLE (a b : Nat × ℚ) : Prop :=
  b.2 < a.2 ∨ (a.2 = b.2 ∧ a.1 ≤ b.1)

instance : DecidableRel rankLE := fun a b => by
  unfold rankLE; infer_instance

/-- Insert into a list sorted by `rankLE`. -/
def insRank (x : Nat × ℚ) : List (Nat × ℚ) → List (Nat × ℚ)
  | [] => [x]
  | y :: ys => if rankLE x y then x :: y :: ys else y :: insRank x ys

/-- Sort scored positions by `rankLE` (best first). -/
def rankSort : List (Nat × ℚ) → List (Nat × ℚ)
  | [] => []
  | x :: xs => insRank x (rankSort xs)

/-- The distance FAISS reports for a missing result on an inner-product
index: `-FLT_MAX`. -/
def faissMissingScore : ℚ := -340282346638528859811704183484516925440

/-- `faiss.IndexFlatIP.search` on the stored vectors `vecs` with query
vector `q`, asking for `k` results: exact search returning the `k` best
(stored position, inner product) pairs in non-increasing score order,
ties resolved towards the earlier stored vector; when `k` exceeds the
number of stored vectors the output is padded with the sentinel index
`-1` and distance `-FLT_MAX`. -/
def faissSearch (vecs : List (List ℚ)) (q : List ℚ) (k : Nat) : List (Int × ℚ) :=
  ((rankSort (vecs.map (fun v => dot q v)).enum).take k).map
      (fun p => ((p.1 : Int), p.2))
    ++ List.replicate (k - vecs.length) ((-1 : Int), faissMissingScore)

/-- Python list subscription `xs[i]`: non-negative indices from the
front, negative indices from the back, `none` for an `IndexError`. -/
def pyGet {α : Type} (xs : List α) (i : Int) : Option α :=
  if 0 ≤ i then xs.get? i.toNat
  else if 0 ≤ (xs.length : Int) + i then xs.get? ((xs.length : Int) + i).toNat
  else none

/-- The result loop of `search_vector_store` (lines 138–143 of
`rag_utils.py`): keep a raw `(idx, distance)` pair only when
`idx < len(chunks)`, resolving the chunk by Python subscription.  The
`none` branch (an `IndexError`) is unreachable for FAISS outputs, whose
indices are either stored positions or `-1`. -/
def buildResults (chunks : List Str) : List (Int × ℚ) → List (Str × ℚ)
  | [] => []
  | (i, d) :: rest =>
    if i < (chunks.length : Int) then
      match pyGet chunks i with
      | some c => (c, d) :: buildResults chunks rest
      | none => buildResults chunks rest
    else buildResults chunks rest

/-- `RAGPipeline.search_vector_store` (lines 104–145 of `rag_utils.py`):
empty result on a blank query, otherwise embed the query and look up
`min(top_k, len(chunks))` results in the index. -/
def search_vector_store (embed : Str → List ℚ) (index : List (List ℚ))
    (chunks : List Str) (query : Str) (top_k : Nat) : List (Str × ℚ) :=
  if pyStrip query = [] then []
  else buildResults chunks (faissSearch index (embed query) (min top_k chunks.length))

/-- The message of the `ValueError` raised by `create_vector_store`
on an empty chunk list (the spec's `EmptyInputError`). -/
def emptyChunksMsg : Str := ("Cannot create vector store from empty chunks").data

/-- `RAGPipeline.create_vector_store` (lines 74–102 of `rag_utils.py`):
raise on an empty chunk list, otherwise embed every chunk (normalization
included in `embed`) and return the index together with the chunks. -/
def create_vector_store (embed : Str → List ℚ) (chunks : List Str) :
    Except Str (List (List ℚ) × List Str) :=
  if chunks = [] then .error emptyChunksMsg else .ok (chunks.map embed, chunks)

/-- Round a rational to the nearest integer, ties to even (the rounding
used by Python's fixed-point float formatting). -/
def roundHalfEven (x : ℚ) : ℤ :=
  if x - ⌊x⌋ < 1 / 2 then ⌊x⌋
  else if 1 / 2 < x - ⌊x⌋ then ⌊x⌋ + 1
  else if ⌊x⌋ % 2 = 0 then ⌊x⌋ else ⌊x⌋ + 1

/-- Python `f"{s:.2f}"` on a score. -/
def format2f (s : ℚ) : Str :=
  let n := (roundHalfEven (s * 100)).natAbs
  (if s < 0 then ['-'] else []) ++ (Nat.repr (n / 100)).data
    ++ '.' :: ((if n % 100 < 10 then ['0'] else []) ++ (Nat.repr (n % 100)).data)

/-- One formatted context part:
`f"[Relevant Section {i}] (Relevance: {score:.2f})\n{chunk}"`
(line 183 of `rag_utils.py`). -/
def fmtPart (i : Nat) (chunk : Str) (score : ℚ) : Str :=
  ("[Relevant Section ").data ++ (Nat.repr i).data ++ ("] (Relevance: ").data
    ++ format2f score ++ ')' :: '\n' :: chunk

/-- Python `sep.join(parts)`. -/
def pyJoin (sep : Str) : List Str → Str
  | [] => []
  | [s] => s
  | s :: r :: rest => s ++ sep ++ pyJoin sep (r :: rest)

/-- The fixed delimiter `"\n\n---\n\n"` between context parts
(line 185 of `rag_utils.py`). -/
def ctxDelim : Str := ("\n\n---\n\n").data

/-- The `enumerate(filtered_results, 1)` formatting loop of
`get_context_for_query` (lines 181–183 of `rag_utils.py`). -/
def contextParts : Nat → List (Str × ℚ) → List Str
  | _, [] => []
  | i, (c, s) :: rest => fmtPart i c s :: contextParts (i + 1) rest

/-- `RAGPipeline.get_context_for_query` (lines 147–188 of
`rag_utils.py`; defaults in the source: `top_k = 3`,
`min_similarity = 0.3`). -/
def get_context_for_query (embed : Str → List ℚ) (index : List (List ℚ))
    (chunks : List Str) (query : Str) (top_k : Nat) (min_similarity : ℚ) : Str :=
  let results := search_vector_store embed index chunks query top_k
  let filtered := results.filter (fun p => min_similarity ≤ p.2)
  if filtered = [] then [] else pyJoin ctxDelim (contextParts 1 filtered)

/-- A cached store: the FAISS index contents paired with the chunk list. -/
abbrev StorePair := List (List ℚ) × List Str

/-- The get-or-build block of the `/chat` handler (lines 176–187 of
`app.py`) acting on the process-wide `vector_stores` mapping, modelled
as an association list: on a hit return the stored pair and leave the
mapping unchanged; on a miss chunk the text with the source's default
parameters, build the store, record the pair under the id and return it,
propagating a build failure. -/
def getOrBuildStore (embed : Str → List ℚ) (cache : List (Str × StorePair))
    (tid : Str) (text : Str) : Except Str (StorePair × List (Str × StorePair)) :=
  match List.lookup tid cache with
  | some pair => .ok (pair, cache)
  | none =>
    match create_vector_store embed (chunk_text text 500 50) with
    | .error e => .error e
    | .ok pair => .ok (pair, (tid, pair) :: cache)

/-- The string does not start with whitespace. -/
def noLead (s : Str) : Prop :=
  ∀ x, s.head? = some x → pyIsSpace x = false

/-- The string does not end with whitespace. -/
def noTrail (s : Str) : Prop :=
  ∀ x, s.getLast? = some x → pyIsSpace x = false

/-- The string has at least one non-whitespace character. -/
def hasInk (s : Str) : Prop :=
  ∃ c ∈ s, pyIsSpace c = false

/-! ### Lemmas about `pyStrip` -/

theorem dropWhile_head?_not {α : Type} {p : α → Bool} :
    ∀ {l : List α} {x : α}, (List.dropWhile p l).head? = some x → p x = false := by
  intro l
  induction l with
  | nil => intro x h; simp [List.dropWhile] at h
  | cons c t ih =>
    intro x h
    by_cases hc : p c
    · rw [List.dropWhile_cons_of_pos hc] at h
      exact ih h
    · rw [List.dropWhile_cons_of_neg hc] at h
      simp only [List.head?_cons, Option.some.injEq] at h
      subst h
      simpa using hc

theorem dropWhile_eq_self_of_head {α : Type} {p : α → Bool} {l : List α}
    (h : ∀ x, l.head? = some x → p x = false) : List.dropWhile p l = l := by
  cases l with
  | nil => rfl
  | cons c t =>
    have hc : p c = false := h c rfl
    simp [List.dropWhile_cons, hc]

theorem pyStrip_of_noTrail {s : Str} (h : noTrail s) :
    pyStrip s = s.dropWhile pyIsSpace := by
  unfold pyStrip
  set t := s.dropWhile pyIsSpace with ht
  rcases eq_or_ne t [] with h0 | h0
  · simp [h0]
  · have hsuff : t <:+ s := List.dropWhile_suffix pyIsSpace
    obtain ⟨u, hu⟩ := hsuff
    have hlast : t.getLast? = s.getLast? := by
      rw [← hu]
      exact (List.getLast?_append_of_ne_nil u h0).symm
    have hhead : ∀ x, t.reverse.head? = some x → pyIsSpace x = false := by
      intro x hx
      rw [List.head?_reverse, hlast] at hx
      exact h x hx
    rw [dropWhile_eq_self_of_head hhead, List.reverse_reverse]

theorem pyStrip_noLead (s : Str) : noLead (pyStrip s) := by
  intro x hx
  unfold pyStrip at hx
  rcases h0 : ((s.dropWhile pyIsSpace).reverse.dropWhile pyIsSpace) with _ | ⟨c, t⟩
  · rw [h0] at hx; simp at hx
  · rw [h0] at hx
    have hne : (c :: t) ≠ [] := by simp
    have hsuff : (c :: t) <:+ (s.dropWhile pyIsSpace).reverse := by
      rw [← h0]; exact List.dropWhile_suffix pyIsSpace
    obtain ⟨u, hu⟩ := hsuff
    have hlast : (c :: t).getLast? = (s.dropWhile pyIsSpace).reverse.getLast? := by
      rw [← hu]
      exact (List.getLast?_append_of_ne_nil u hne).symm
    have h2 : (s.dropWhile pyIsSpace).reverse.getLast? = (s.dropWhile pyIsSpace).head? := by
      rw [← List.head?_reverse, List.reverse_reverse]
    rw [List.head?_reverse] at hx
    rcases hy : (s.dropWhile pyIsSpace).head? with _ | y
    · rw [hlast, h2, hy] at hx; simp at hx
    · rw [hlast, h2, hy] at hx
      cases hx
      exact dropWhile_head?_not hy

theorem pyStrip_noTrail (s : Str) : noTrail (pyStrip s) := by
  intro x hx
  unfold pyStrip at hx
  rw [← List.head?_reverse, List.reverse_reverse] at hx
  exact dropWhile_head?_not hx

theorem pyStrip_eq_self {s : Str} (h1 : noLead s) (h2 : noTrail s) :
    pyStrip s = s := by
  rw [pyStrip_of_noTrail h2]
  exact dropWhile_eq_self_of_head h1

theorem pyStrip_idem (s : Str) : pyStrip (pyStrip s) = pyStrip s :=
  pyStrip_eq_self (pyStrip_noLead s) (pyStrip_noTrail s)

theorem pyStrip_eq_nil_iff {s : Str} :
    pyStrip s = [] ↔ ∀ c ∈ s, pyIsSpace c = true := by
  unfold pyStrip
  constructor
  · intro h c hc
    rw [List.reverse_eq_nil_iff, List.dropWhile_eq_nil_iff] at h
    by_contra hcf
    have hmem : c ∈ s.dropWhile pyIsSpace := by
      by_contra hnm
      have := List.takeWhile_append_dropWhile pyIsSpace s
      have hc2 : c ∈ s.takeWhile pyIsSpace ++ s.dropWhile pyIsSpace := by
        rw [this]; exact hc
      rcases List.mem_append.mp hc2 with h3 | h3
      · exact hcf (List.mem_takeWhile_imp h3)
      · exact hnm h3
    have : pyIsSpace c = true := h c (by simpa using hmem)
    exact hcf this
  · intro h
    have : s.dropWhile pyIsSpace = [] := by
      rw [List.dropWhile_eq_nil_iff]
      intro a ha; exact h a ha
    simp [this]

theorem pyStrip_length_le (s : Str) : (pyStrip s).length ≤ s.length := by
  unfold pyStrip
  calc ((s.dropWhile pyIsSpace).reverse.dropWhile pyIsSpace).reverse.length
      = ((s.dropWhile pyIsSpace).reverse.dropWhile pyIsSpace).length := by
        rw [List.length_reverse]
    _ ≤ (s.dropWhile pyIsSpace).reverse.length :=
        ((List.dropWhile_sublist _).length_le)
    _ = (s.dropWhile pyIsSpace).length := by rw [List.length_reverse]
    _ ≤ s.length := (List.dropWhile_sublist _).length_le

theorem hasInk_iff_pyStrip_ne_nil {s : Str} : hasInk s ↔ pyStrip s ≠ [] := by
  rw [Ne, pyStrip_eq_nil_iff]
  unfold hasInk
  push_neg
  constructor
  · rintro ⟨c, hc, hcf⟩
    exact ⟨c, hc, by simp [hcf]⟩
  · rintro ⟨c, hc, hcf⟩
    exact ⟨c, hc, by simpa using hcf⟩

/-! ### Lemmas about `splitNN` and `paragraphs` -/

theorem splitNN_cons_eq {c : Char} {rest : Str} {h : Str} {t : List Str}
    (hne : ∀ r : Str, c = '\n' → rest = '\n' :: r → False)
    (hst : splitNN rest = h :: t) :
    splitNN (c :: rest) = (c :: h) :: t := by
  rw [splitNN.eq_def]
  split
  · simp_all
  · rename_i r heq
    injection heq with h1 h2
    exact absurd (hne r h1 h2) (fun f => f)
  · rename_i c' rest' hx heq
    injection heq with h1 h2
    subst h1; subst h2
    rw [hst]

theorem splitNN_ne_nil : ∀ l : Str, splitNN l ≠ [] := by
  intro l
  induction l using splitNN.induct with
  | case1 => simp [splitNN]
  | case2 rest ih => simp [splitNN]
  | case3 c rest hne h0 ih => exact absurd h0 ih
  | case4 c rest hne h t hst ih =>
    rw [splitNN_cons_eq hne hst]
    simp

theorem splitNN_no_sep : ∀ l : Str, ¬ (['\n', '\n'] <:+: l) → splitNN l = [l] := by
  intro l
  induction l using splitNN.induct with
  | case1 => intro _; rfl
  | case2 rest ih =>
    intro h
    exact absurd ⟨[], rest, rfl⟩ h
  | case3 c rest hne h0 ih => exact absurd h0 (splitNN_ne_nil rest)
  | case4 c rest hne hd t hst ih =>
    intro h
    have hrest : ¬ (['\n', '\n'] <:+: rest) := by
      rintro ⟨u, v, huv⟩
      exact h ⟨c :: u, v, by rw [← huv]; rfl⟩
    have := ih hrest
    rw [hst] at this
    injection this with e1 e2
    subst e1; subst e2
    exact splitNN_cons_eq hne hst

theorem splitNN_ink : ∀ (l : Str) (c : Char), c ∈ l → pyIsSpace c = false →
    ∃ p ∈ splitNN l, c ∈ p := by
  intro l
  induction l using splitNN.induct with
  | case1 => intro c hc _; simp at hc
  | case2 rest ih =>
    intro c hc hcf
    rcases List.mem_cons.mp hc with h1 | hc2
    · subst h1; simp [pyIsSpace] at hcf
    rcases List.mem_cons.mp hc2 with h1 | hc3
    · subst h1; simp [pyIsSpace] at hcf
    obtain ⟨p, hp, hcp⟩ := ih c hc3 hcf
    exact ⟨p, by rw [splitNN]; exact List.mem_cons_of_mem _ hp, hcp⟩
  | case3 c rest hne h0 ih => exact absurd h0 (splitNN_ne_nil rest)
  | case4 c rest hne hd t hst ih =>
    intro x hx hxf
    rw [splitNN_cons_eq hne hst]
    rcases List.mem_cons.mp hx with h1 | hx2
    · subst h1
      exact ⟨x :: hd, List.mem_cons_self _ _, List.mem_cons_self _ _⟩
    obtain ⟨p, hp, hxp⟩ := ih x hx2 hxf
    rw [hst] at hp
    rcases List.mem_cons.mp hp with h1 | hp2
    · subst h1
      exact ⟨c :: p, List.mem_cons_self _ _, List.mem_cons_of_mem _ hxp⟩
    · exact ⟨p, List.mem_cons_of_mem _ hp2, hxp⟩

theorem mem_paragraphs {p text : Str} (hp : p ∈ paragraphs text) :
    p ≠ [] ∧ noLead p ∧ noTrail p := by
  unfold paragraphs at hp
  obtain ⟨hmem, hfil⟩ := List.mem_filter.mp hp
  obtain ⟨q, _, rfl⟩ := List.mem_map.mp hmem
  refine ⟨?_, pyStrip_noLead q, pyStrip_noTrail q⟩
  intro h0
  rw [h0] at hfil
  simp at hfil

theorem hasInk_of_ne_nil_noLead {s : Str} (h1 : s ≠ []) (h2 : noLead s) :
    hasInk s := by
  cases s with
  | nil => exact absurd rfl h1
  | cons c t => exact ⟨c, List.mem_cons_self _ _, h2 c rfl⟩

theorem mem_paragraphs_ink {p text : Str} (hp : p ∈ paragraphs text) : hasInk p :=
  hasInk_of_ne_nil_noLead (mem_paragraphs hp).1 (mem_paragraphs hp).2.1

theorem hasInk_pyStrip {s : Str} (h : hasInk s) : hasInk (pyStrip s) :=
  hasInk_of_ne_nil_noLead (hasInk_iff_pyStrip_ne_nil.mp h) (pyStrip_noLead s)

theorem paragraphs_ne_nil {text : Str} (h : hasInk text) : paragraphs text ≠ [] := by
  obtain ⟨c, hc, hcf⟩ := h
  obtain ⟨p, hp, hcp⟩ := splitNN_ink text c hc hcf
  have hink : hasInk p := ⟨c, hcp, hcf⟩
  intro h0
  unfold paragraphs at h0
  rw [List.filter_eq_nil_iff] at h0
  have hmem : pyStrip p ∈ (splitNN text).map pyStrip := List.mem_map_of_mem _ hp
  have h2 := h0 (pyStrip p) hmem
  simp [List.isEmpty_iff] at h2
  exact (hasInk_iff_pyStrip_ne_nil.mp hink) h2

/-! ### Invariants of the chunking loop -/

theorem hasInk_append_right {a b : Str} (h : hasInk b) : hasInk (a ++ b) := by
  obtain ⟨c, hc, hcf⟩ := h
  exact ⟨c, List.mem_append_right a hc, hcf⟩

theorem chunkLoop_mem_ink (cs ov : Nat) :
    ∀ (ps : List Str) (cur : Str), (∀ p ∈ ps, hasInk p) → (cur = [] ∨ hasInk cur) →
    ∀ c ∈ chunkLoop cs ov ps cur, c ≠ [] ∧ hasInk c := by
  intro ps
  induction ps with
  | nil =>
    intro cur _ hcur c hc
    unfold chunkLoop at hc
    split at hc
    · simp at hc
    · rename_i h0
      simp only [List.mem_singleton] at hc
      subst hc
      rcases hcur with h1 | h1
      · exact absurd h1 h0
      · exact ⟨hasInk_iff_pyStrip_ne_nil.mp h1, hasInk_pyStrip h1⟩
  | cons p ps ih =>
    intro cur hps hcur c hc
    unfold chunkLoop at hc
    split at hc
    · rename_i hcond
      rcases List.mem_cons.mp hc with h1 | h1
      · subst h1
        have hink : hasInk cur := by
          rcases hcur with h2 | h2
          · exact absurd h2 hcond.2
          · exact h2
        exact ⟨hasInk_iff_pyStrip_ne_nil.mp hink, hasInk_pyStrip hink⟩
      · refine ih _ (fun q hq => hps q (List.mem_cons_of_mem _ hq)) (Or.inr ?_) c h1
        exact hasInk_append_right (by
          obtain ⟨x, hx, hxf⟩ := hps p (List.mem_cons_self _ _)
          exact ⟨x, List.mem_cons_of_mem _ hx, hxf⟩)
    · refine ih _ (fun q hq => hps q (List.mem_cons_of_mem _ hq)) (Or.inr ?_) c hc
      have hpink : hasInk p := hps p (List.mem_cons_self _ _)
      split
      · exact hpink
      · exact hasInk_append_right (by
          obtain ⟨x, hx, hxf⟩ := hpink
          exact ⟨x, List.mem_cons_of_mem _ (List.mem_cons_of_mem _ hx), hxf⟩)

theorem chunkLoop_ne_nil (cs ov : Nat) :
    ∀ (ps : List Str) (cur : Str), (∀ p ∈ ps, p ≠ []) → (ps ≠ [] ∨ cur ≠ []) →
    chunkLoop cs ov ps cur ≠ [] := by
  intro ps
  induction ps with
  | nil =>
    intro cur _ hne
    unfold chunkLoop
    rcases hne with h | h
    · exact absurd rfl h
    · rw [if_neg h]; simp
  | cons p ps ih =>
    intro cur hps _
    unfold chunkLoop
    split
    · simp
    · refine ih _ (fun q hq => hps q (List.mem_cons_of_mem _ hq)) (Or.inr ?_)
      split
      · exact hps p (List.mem_cons_self _ _)
      · simp

/-- Claim C9: every string returned by `chunk_text` is non-empty and
contains at least one non-whitespace character, and the returned list is
empty exactly when the input is empty or whitespace-only. -/
theorem C9_chunks_nonblank (text : Str) (chunk_size overlap : Nat) :
    (∀ c ∈ chunk_text text chunk_size overlap, c ≠ [] ∧ hasInk c) ∧
    (chunk_text text chunk_size overlap = [] ↔ ∀ c ∈ text, pyIsSpace c = true) := by
  constructor
  · intro c hc
    unfold chunk_text at hc
    split at hc
    · simp at hc
    · exact chunkLoop_mem_ink _ _ _ _ (fun p hp => mem_paragraphs_ink hp) (Or.inl rfl) c hc
  · unfold chunk_text
    split
    · rename_i h0
      exact ⟨fun _ => pyStrip_eq_nil_iff.mp h0, fun _ => rfl⟩
    · rename_i h0
      have hink : hasInk text := hasInk_iff_pyStrip_ne_nil.mpr h0
      refine iff_of_false ?_ ?_
      · exact chunkLoop_ne_nil _ _ _ _ (fun p hp => (mem_paragraphs hp).1)
          (Or.inl (paragraphs_ne_nil hink))
      · intro hall
        exact h0 (pyStrip_eq_nil_iff.mpr hall)

/-- Witness for C9 on the concrete input `"ab"`. -/
theorem C9_witness : ['a', 'b'] ≠ [] ∧ hasInk ['a', 'b'] :=
  (C9_chunks_nonblank (("ab").data) 500 50).1 ['a', 'b'] (by decide)

/-- Claim C6: a non-empty, non-whitespace text with no embedded double
newline produces exactly one chunk, the stripped input, for any
`chunk_size` and `overlap` — in particular also when the single
paragraph is longer than `chunk_size`. -/
theorem C6_single_paragraph (text : Str) (chunk_size overlap : Nat)
    (h1 : pyStrip text ≠ []) (h2 : ¬ (['\n', '\n'] <:+: text)) :
    chunk_text text chunk_size overlap = [pyStrip text] := by
  have hpar : paragraphs text = [pyStrip text] := by
    unfold paragraphs
    have hne : (pyStrip text).isEmpty = false := by
      cases hs : pyStrip text with
      | nil => exact absurd hs h1
      | cons c t => rfl
    rw [splitNN_no_sep text h2]
    simp [List.filter, hne]
  unfold chunk_text
  rw [if_neg h1, hpar]
  simp [chunkLoop, h1, pyStrip_idem]

/-- Witness for C6 on the concrete input `"hello world"` with
`chunk_size = 5` (an oversized single paragraph). -/
theorem C6_witness :
    chunk_text (("hello world").data) 5 50 = [pyStrip (("hello world").data)] :=
  C6_single_paragraph (("hello world").data) 5 50 (by decide) (by decide)

/-- Claim C7: a query that is empty or consists only of whitespace makes
`search_vector_store` return the empty result list, for every store. -/
theorem C7_blank_query_empty (embed : Str → List ℚ) (index : List (List ℚ))
    (chunks : List Str) (query : Str) (top_k : Nat)
    (h : ∀ c ∈ query, pyIsSpace c = true) :
    search_vector_store embed index chunks query top_k = [] := by
  unfold search_vector_store
  rw [if_pos (pyStrip_eq_nil_iff.mpr h)]

/-- Witness for C7 on a whitespace-only query. -/
theorem C7_witness :
    search_vector_store (fun _ => [1]) [[1]] [['a']] [' ', '\t'] 3 = [] :=
  C7_blank_query_empty (fun _ => [1]) [[1]] [['a']] [' ', '\t'] 3 (by decide)

/-- Claim C2: `create_vector_store` fails exactly on an empty chunk
list, and then with the `ValueError` message of line 86 of
`rag_utils.py`; no store is produced in that case. -/
theorem C2_create_vector_store_empty_error (embed : Str → List ℚ) (chunks : List Str) :
    ((∃ e, create_vector_store embed chunks = Except.error e) ↔ chunks = []) ∧
    (chunks = [] → create_vector_store embed chunks = Except.error emptyChunksMsg) := by
  unfold create_vector_store
  constructor
  · constructor
    · rintro ⟨e, he⟩
      by_contra h0
      rw [if_neg h0] at he
      cases he
    · intro h0
      rw [if_pos h0]
      exact ⟨emptyChunksMsg, rfl⟩
  · intro h0
    rw [if_pos h0]

/-- Witness for C2: building from the empty chunk list fails with the
empty-input error. -/
theorem C2_witness :
    create_vector_store (fun _ => [1]) [] = Except.error emptyChunksMsg :=
  (C2_create_vector_store_empty_error (fun _ => [1]) []).2 rfl

/-- Claim C8: a cache hit returns the stored pair and leaves the cache
unchanged (no rebuild); a cache miss chunks the text with the source's
default parameters, builds the store, records the pair under the id and
returns it, propagating a build failure. -/
theorem C8_cache_hit_miss (embed : Str → List ℚ) (cache : List (Str × StorePair))
    (tid text : Str) :
    (∀ pair, List.lookup tid cache = some pair →
      getOrBuildStore embed cache tid text = Except.ok (pair, cache)) ∧
    (List.lookup tid cache = none →
      (∀ pair, create_vector_store embed (chunk_text text 500 50) = Except.ok pair →
        getOrBuildStore embed cache tid text = Except.ok (pair, (tid, pair) :: cache)) ∧
      (∀ e, create_vector_store embed (chunk_text text 500 50) = Except.error e →
        getOrBuildStore embed cache tid text = Except.error e)) := by
  unfold getOrBuildStore
  refine ⟨fun pair h => by rw [h], fun h => ?_⟩
  rw [h]
  exact ⟨fun pair hp => by rw [hp], fun e he => by rw [he]⟩

/-- Witness for C8: a concrete cache hit returns the stored pair with
the cache unchanged. -/
theorem C8_witness :
    getOrBuildStore (fun _ => [1]) [(['t'], ([[1]], [['a']]))] ['t'] ['x']
      = Except.ok ((([[1]], [['a']]) : StorePair), [(['t'], ([[1]], [['a']]))]) :=
  (C8_cache_hit_miss (fun _ => [1]) [(['t'], ([[1]], [['a']]))] ['t'] ['x']).1
    ([[1]], [['a']]) (by decide)

/-! ### Chunk-length bound (claim C10) -/

theorem flushSeed_length_le {ov : Nat} (hov : 1 ≤ ov) (cur : Str) :
    (flushSeed ov cur).length ≤ ov := by
  unfold flushSeed pySliceLast
  split
  · rename_i h
    rw [if_neg (by omega)]
    simp only [List.length_drop]
    omega
  · rename_i h
    omega

theorem chunkLoop_length_le (cs ov : Nat) (hov : 1 ≤ ov) (hlt : ov < cs) :
    ∀ (ps : List Str) (cur : Str),
      (∀ p ∈ ps, p.length ≤ cs - ov - 1) → cur.length ≤ cs + 2 →
      ∀ c ∈ chunkLoop cs ov ps cur, c.length ≤ cs + 2 := by
  intro ps
  induction ps with
  | nil =>
    intro cur _ hcur c hc
    unfold chunkLoop at hc
    split at hc
    · simp at hc
    · simp only [List.mem_singleton] at hc
      subst hc
      exact le_trans (pyStrip_length_le cur) hcur
  | cons p ps ih =>
    intro cur hps hcur c hc
    have h2 : p.length ≤ cs - ov - 1 := hps p (List.mem_cons_self _ _)
    unfold chunkLoop at hc
    split at hc
    · rcases List.mem_cons.mp hc with h1 | h1
      · subst h1
        exact le_trans (pyStrip_length_le cur) hcur
      · refine ih _ (fun q hq => hps q (List.mem_cons_of_mem _ hq)) ?_ c h1
        have h3 : (flushSeed ov cur).length ≤ ov := flushSeed_length_le hov cur
        simp only [List.length_append, List.length_cons]
        omega
    · rename_i hcond
      refine ih _ (fun q hq => hps q (List.mem_cons_of_mem _ hq)) ?_ c hc
      split
      · omega
      · rename_i hne
        have h4 : cur.length + p.length ≤ cs := by
          rcases not_and_or.mp hcond with h | h
          · omega
          · exact absurd (not_not.mp h) hne
        simp only [List.length_append, List.length_cons]
        omega

/-- Counterexample to claim C10 as stated: the claim admits
`overlap = 0`, but Python's `current_chunk[-0:]` is the whole buffer, so
with `chunk_size = 5`, `overlap = 0` and text `"aaaa\n\nbbbb\n\ncccc"`
(all paragraphs of length `4 ≤ 5 - 0 - 1`) the loop re-carries the whole
buffer and produces a chunk longer than `chunk_size + 2`. -/
theorem C10_cex_zero_overlap :
    (∀ p ∈ paragraphs (("aaaa\n\nbbbb\n\ncccc").data), p.length ≤ 5 - 0 - 1) ∧
    (0 : Nat) < 5 ∧
    ∃ c ∈ chunk_text (("aaaa\n\nbbbb\n\ncccc").data) 5 0, 5 + 2 < c.length := by
  decide

/-- Claim C10 amended: for `1 ≤ overlap < chunk_size`, if every
paragraph has length at most `chunk_size - overlap - 1`, every chunk has
length at most `chunk_size + 2` (the two-character blank-line joiner is
not counted by the flush condition). -/
theorem C10_chunk_length_bound (text : Str) (chunk_size overlap : Nat)
    (hov : 1 ≤ overlap) (hlt : overlap < chunk_size)
    (hpar : ∀ p ∈ paragraphs text, p.length ≤ chunk_size - overlap - 1) :
    ∀ c ∈ chunk_text text chunk_size overlap, c.length ≤ chunk_size + 2 := by
  intro c hc
  unfold chunk_text at hc
  split at hc
  · simp at hc
  · exact chunkLoop_length_le _ _ hov hlt _ _ hpar (by simp) c hc

/-- Witness for the amended C10 on the concrete input `"ab\n\ncd"` with
`chunk_size = 5`, `overlap = 1`. -/
theorem C10_witness :
    (('a' :: 'b' :: '\n' :: '\n' :: 'c' :: 'd' :: []) : Str).length ≤ 5 + 2 :=
  C10_chunk_length_bound (("ab\n\ncd").data) 5 1 (by decide) (by decide) (by decide)
    _ (by decide)

/-! ### Structure of the overlap carry-over (claim C5) -/

theorem chunkLoop_eq_map_pyStrip (cs ov : Nat) :
    ∀ (ps : List Str) (cur : Str),
      chunkLoop cs ov ps cur = (chunkRaw cs ov ps cur).map pyStrip := by
  intro ps
  induction ps with
  | nil =>
    intro cur
    unfold chunkLoop chunkRaw
    split <;> rename_i h <;> simp [h]
  | cons p ps ih =>
    intro cur
    unfold chunkLoop chunkRaw
    split <;> rename_i h <;> simp [h, ih]

theorem chunkRaw_head (cs ov : Nat) :
    ∀ (ps : List Str) (buf : Str), buf ≠ [] →
      ∃ qs u rest, ps = qs ++ u ∧
        chunkRaw cs ov ps buf = (buf ++ nnJoin qs) :: rest := by
  intro ps
  induction ps with
  | nil =>
    intro buf hbuf
    refine ⟨[], [], [], rfl, ?_⟩
    unfold chunkRaw
    rw [if_neg hbuf]
    simp [nnJoin]
  | cons p ps ih =>
    intro buf hbuf
    unfold chunkRaw
    split
    · refine ⟨[], p :: ps, chunkRaw cs ov ps (flushSeed ov buf ++ ' ' :: p), rfl, ?_⟩
      simp [nnJoin]
    · obtain ⟨qs', u', rest', hps, heq⟩ := ih (buf ++ '\n' :: '\n' :: p) (by simp)
      refine ⟨p :: qs', u', rest', by simp [hps], ?_⟩
      rw [heq]
      simp [nnJoin, List.append_assoc]

theorem chunkRaw_adj (cs ov : Nat) :
    ∀ (ps : List Str) (cur : Str) (i : Nat), i + 1 < (chunkRaw cs ov ps cur).length →
      ∃ q qs, sublistSeg (q :: qs) ps ∧
        (chunkRaw cs ov ps cur).getD (i + 1) []
          = flushSeed ov ((chunkRaw cs ov ps cur).getD i []) ++ ' ' :: (q ++ nnJoin qs) := by
  intro ps
  induction ps with
  | nil =>
    intro cur i hi
    unfold chunkRaw at hi
    split at hi
    · simp at hi
    · simp at hi
  | cons p ps ih =>
    intro cur i hi
    unfold chunkRaw at hi ⊢
    split at hi
    · rename_i hcond
      rw [if_pos hcond]
      cases i with
      | zero =>
        obtain ⟨qs', u', rest', hps, heq⟩ :=
          chunkRaw_head cs ov ps (flushSeed ov cur ++ ' ' :: p) (by simp)
        refine ⟨p, qs', ⟨[], u', by simp [hps]⟩, ?_⟩
        rw [heq]
        simp [List.append_assoc]
      | succ j =>
        have hi2 : j + 1 < (chunkRaw cs ov ps (flushSeed ov cur ++ ' ' :: p)).length := by
          simp at hi; omega
        obtain ⟨q, qs, hseg, heq⟩ := ih (flushSeed ov cur ++ ' ' :: p) j hi2
        refine ⟨q, qs, ?_, ?_⟩
        · obtain ⟨u, v, huv⟩ := hseg
          exact ⟨p :: u, v, by simp [huv]⟩
        · simpa [List.getD_cons_succ] using heq
    · rename_i hcond
      rw [if_neg hcond]
      obtain ⟨q, qs, hseg, heq⟩ := ih _ i hi
      refine ⟨q, qs, ?_, heq⟩
      obtain ⟨u, v, huv⟩ := hseg
      exact ⟨p :: u, v, by simp [huv]⟩

theorem chunkRaw_clean (cs ov : Nat) :
    ∀ (ps : List Str) (cur : Str), (∀ p ∈ ps, p ≠ [] ∧ noTrail p) →
      (cur = [] ∨ (cur ≠ [] ∧ noTrail cur)) →
      ∀ r ∈ chunkRaw cs ov ps cur, r ≠ [] ∧ noTrail r := by
  intro ps
  induction ps with
  | nil =>
    intro cur _ hcur r hr
    unfold chunkRaw at hr
    split at hr
    · simp at hr
    · rename_i h
      simp only [List.mem_singleton] at hr
      subst hr
      rcases hcur with h1 | h1
      · exact absurd h1 h
      · exact h1
  | cons p ps ih =>
    intro cur hps hcur r hr
    have hp := hps p (List.mem_cons_self _ _)
    unfold chunkRaw at hr
    split at hr
    · rename_i hcond
      rcases List.mem_cons.mp hr with h1 | h1
      · subst h1
        rcases hcur with h2 | h2
        · exact absurd h2 hcond.2
        · exact h2
      · refine ih _ (fun q hq => hps q (List.mem_cons_of_mem _ hq))
          (Or.inr ⟨by simp, ?_⟩) r h1
        intro x hx
        rw [List.getLast?_append_of_ne_nil _ (by simp : (' ' :: p : Str) ≠ [])] at hx
        rw [show (' ' :: p : Str) = [' '] ++ p by rfl,
          List.getLast?_append_of_ne_nil _ hp.1] at hx
        exact hp.2 x hx
    · refine ih _ (fun q hq => hps q (List.mem_cons_of_mem _ hq)) (Or.inr ?_) r hr
      split
      · exact hp
      · refine ⟨by simp, ?_⟩
        intro x hx
        rw [List.getLast?_append_of_ne_nil _ (by simp : ('\n' :: '\n' :: p : Str) ≠ [])] at hx
        rw [show ('\n' :: '\n' :: p : Str) = ['\n', '\n'] ++ p by rfl,
          List.getLast?_append_of_ne_nil _ hp.1] at hx
        exact hp.2 x hx

theorem suffix_dropWhile {s l : Str} (h : s <:+ l) (hs : noLead s) :
    s <:+ l.dropWhile pyIsSpace := by
  induction l with
  | nil =>
    rw [List.suffix_nil.mp h]
    exact List.nil_suffix
  | cons c t ih =>
    by_cases hc : pyIsSpace c
    · rw [List.dropWhile_cons_of_pos hc]
      rcases List.suffix_cons_iff.mp h with h1 | h1
      · exact absurd hc (by rw [h1] at hs; simpa using hs c rfl)
      · exact ih h1
    · rw [List.dropWhile_cons_of_neg (by simpa using hc)]
      exact h

theorem noLead_dropWhile (l : Str) : noLead (l.dropWhile pyIsSpace) :=
  fun _ hx => dropWhile_head?_not hx

theorem flushSeed_suffix (ov : Nat) (cur : Str) : flushSeed ov cur <:+ cur := by
  unfold flushSeed pySliceLast
  split
  · split
    · exact List.suffix_refl _
    · exact List.drop_suffix _ _
  · exact List.suffix_refl _

theorem head?_append_ne_nil {a : Str} (b : Str) (h : a ≠ []) :
    (a ++ b).head? = a.head? := by
  cases a with
  | nil => exact absurd rfl h
  | cons c t => rfl

theorem getD_map_pyStrip (l : List Str) (i : Nat) (h : i < l.length) :
    (l.map pyStrip).getD i [] = pyStrip (l.getD i []) := by
  rw [List.getD_eq_getElem (l.map pyStrip) [] (by simpa using h),
    List.getD_eq_getElem l [] h]
  simp

/-- Claim C5 (for any positive `overlap`, which includes the source's
default `overlap = 50`): every chunk after the first begins with at most
`overlap` characters carried over from the end of the immediately
preceding chunk — it is `pyStrip (seed ++ " " ++ body)` where the
(possibly whitespace-trimmed) seed `dup` has length at most `overlap`
and is a suffix of the preceding chunk, and `body` is the blank-line
join of a contiguous non-empty run of input paragraphs. -/
theorem C5_overlap_bound (text : Str) (chunk_size overlap : Nat) (hov : 1 ≤ overlap) :
    ∀ i, i + 1 < (chunk_text text chunk_size overlap).length →
    ∃ dup q qs,
      dup.length ≤ overlap ∧
      dup <:+ (chunk_text text chunk_size overlap).getD i [] ∧
      sublistSeg (q :: qs) (paragraphs text) ∧
      (chunk_text text chunk_size overlap).getD (i + 1) []
        = if dup = [] then q ++ nnJoin qs else dup ++ ' ' :: (q ++ nnJoin qs) := by
  intro i hi
  unfold chunk_text at hi ⊢
  by_cases h0 : pyStrip text = []
  · rw [if_pos h0] at hi; simp at hi
  rw [if_neg h0] at hi ⊢
  rw [chunkLoop_eq_map_pyStrip] at hi ⊢
  set raws := chunkRaw chunk_size overlap (paragraphs text) [] with hraws
  have hlen : i + 1 < raws.length := by simpa using hi
  have hprevlt : i < raws.length := by omega
  obtain ⟨q, qs, hseg, hadj⟩ := chunkRaw_adj chunk_size overlap (paragraphs text) [] i
    (by rw [← hraws]; exact hlen)
  rw [← hraws] at hadj
  have hclean : ∀ r ∈ raws, r ≠ [] ∧ noTrail r := by
    rw [hraws]
    exact chunkRaw_clean _ _ _ _
      (fun p hp => ⟨(mem_paragraphs hp).1, (mem_paragraphs hp).2.2⟩) (Or.inl rfl)
  have hprevmem : raws.getD i [] ∈ raws := by
    rw [List.getD_eq_getElem raws [] hprevlt]
    exact List.getElem_mem hprevlt
  have hnextmem : raws.getD (i + 1) [] ∈ raws := by
    rw [List.getD_eq_getElem raws [] hlen]
    exact List.getElem_mem hlen
  obtain ⟨hprev_ne, hprev_clean⟩ := hclean _ hprevmem
  obtain ⟨hnext_ne, hnext_clean⟩ := hclean _ hnextmem
  have hqmem : q ∈ paragraphs text := by
    obtain ⟨u, v, huv⟩ := hseg
    rw [huv]; simp
  obtain ⟨hq_ne, hq_noLead, _⟩ := mem_paragraphs hqmem
  refine ⟨(flushSeed overlap (raws.getD i [])).dropWhile pyIsSpace, q, qs, ?_, ?_, hseg, ?_⟩
  · calc ((flushSeed overlap (raws.getD i [])).dropWhile pyIsSpace).length
        ≤ (flushSeed overlap (raws.getD i [])).length := (List.dropWhile_sublist _).length_le
      _ ≤ overlap := flushSeed_length_le hov _
  · rw [getD_map_pyStrip raws i hprevlt, pyStrip_of_noTrail hprev_clean]
    exact suffix_dropWhile ((List.dropWhile_suffix _).trans (flushSeed_suffix _ _))
      (noLead_dropWhile _)
  · rw [getD_map_pyStrip raws (i + 1) hlen, pyStrip_of_noTrail hnext_clean, hadj,
      List.dropWhile_append]
    by_cases hd : (flushSeed overlap (raws.getD i [])).dropWhile pyIsSpace = []
    · rw [hd]
      simp only [List.isEmpty_nil, if_true, reduceIte]
      rw [List.dropWhile_cons_of_pos (by decide : pyIsSpace ' ' = true)]
      exact dropWhile_eq_self_of_head
        (fun x hx => hq_noLead x (by rwa [head?_append_ne_nil _ hq_ne] at hx))
    · have hie : ((flushSeed overlap (raws.getD i [])).dropWhile pyIsSpace).isEmpty = false := by
        cases hc : (flushSeed overlap (raws.getD i [])).dropWhile pyIsSpace with
        | nil => exact absurd hc hd
        | cons a b => rfl
      rw [hie, if_neg hd]
      simp

/-- Witness for C5 on the concrete input `"aaaa\n\nbbbb"` with
`chunk_size = 5`, `overlap = 1`, at the chunk pair (0, 1). -/
theorem C5_witness :
    ∃ dup q qs,
      dup.length ≤ 1 ∧
      dup <:+ (chunk_text (("aaaa\n\nbbbb").data) 5 1).getD 0 [] ∧
      sublistSeg (q :: qs) (paragraphs (("aaaa\n\nbbbb").data)) ∧
      (chunk_text (("aaaa\n\nbbbb").data) 5 1).getD (0 + 1) []
        = if dup = [] then q ++ nnJoin qs else dup ++ ' ' :: (q ++ nnJoin qs) :=
  C5_overlap_bound (("aaaa\n\nbbbb").data) 5 1 (by decide) 0 (by decide)

/-! ### The ranking order of the flat index search -/

theorem rankLE_total (a b : Nat × ℚ) (h : ¬ rankLE a b) : rankLE b a := by
  unfold rankLE at h ⊢
  push_neg at h
  obtain ⟨h1, h2⟩ := h
  rcases lt_trichotomy a.2 b.2 with h3 | h3 | h3
  · exact Or.inl h3
  · have hx : b.1 < a.1 := h2 h3
    exact Or.inr ⟨h3.symm, by omega⟩
  · exact absurd h3 (not_lt.mpr h1)

theorem rankLE_trans (a b c : Nat × ℚ) (h1 : rankLE a b) (h2 : rankLE b c) :
    rankLE a c := by
  unfold rankLE at h1 h2 ⊢
  rcases h1 with h1 | ⟨e1, le1⟩ <;> rcases h2 with h2 | ⟨e2, le2⟩
  · exact Or.inl (lt_trans h2 h1)
  · exact Or.inl (e2 ▸ h1)
  · exact Or.inl (by rw [e1]; exact h2)
  · exact Or.inr ⟨e1.trans e2, le_trans le1 le2⟩

theorem insRank_perm (x : Nat × ℚ) :
    ∀ l : List (Nat × ℚ), (insRank x l).Perm (x :: l) := by
  intro l
  induction l with
  | nil => exact List.Perm.refl _
  | cons y ys ih =>
    unfold insRank
    split
    · exact List.Perm.refl _
    · exact (List.Perm.cons y ih).trans (List.Perm.swap x y ys)

theorem rankSort_perm : ∀ l : List (Nat × ℚ), (rankSort l).Perm l := by
  intro l
  induction l with
  | nil => exact List.Perm.refl _
  | cons x xs ih =>
    unfold rankSort
    exact (insRank_perm x (rankSort xs)).trans (List.Perm.cons x ih)

theorem insRank_pairwise (x : Nat × ℚ) :
    ∀ l : List (Nat × ℚ), l.Pairwise rankLE → (insRank x l).Pairwise rankLE := by
  intro l
  induction l with
  | nil => intro _; simp [insRank]
  | cons y ys ih =>
    intro hp
    obtain ⟨hy, hys⟩ := List.pairwise_cons.mp hp
    unfold insRank
    split
    · rename_i hxy
      refine List.pairwise_cons.mpr ⟨?_, hp⟩
      intro z hz
      rcases List.mem_cons.mp hz with h1 | h1
      · subst h1; exact hxy
      · exact rankLE_trans x y z hxy (hy z h1)
    · rename_i hxy
      refine List.pairwise_cons.mpr ⟨?_, ih hys⟩
      intro z hz
      have hmem : z = x ∨ z ∈ ys := by
        have := (insRank_perm x ys).mem_iff.mp hz
        simpa using this
      rcases hmem with h1 | h1
      · subst h1; exact rankLE_total _ _ hxy
      · exact hy z h1

theorem rankSort_pairwise : ∀ l : List (Nat × ℚ), (rankSort l).Pairwise rankLE := by
  intro l
  induction l with
  | nil => simp [rankSort]
  | cons x xs ih =>
    unfold rankSort
    exact insRank_pairwise x (rankSort xs) ih

/-! ### Positions and scores in the enumerated score list -/

theorem mem_enumFrom_getD {α : Type} (d : α) :
    ∀ (l : List α) (n : Nat) (p : Nat × α), p ∈ List.enumFrom n l →
      n ≤ p.1 ∧ p.1 - n < l.length ∧ l.getD (p.1 - n) d = p.2 := by
  intro l
  induction l with
  | nil => intro n p hp; simp [List.enumFrom] at hp
  | cons a t ih =>
    intro n p hp
    rw [List.enumFrom] at hp
    rcases List.mem_cons.mp hp with h1 | h1
    · subst h1
      refine ⟨le_refl n, by simp, by simp⟩
    · obtain ⟨h2, h3, h4⟩ := ih (n + 1) p h1
      refine ⟨by omega, by simp only [List.length_cons]; omega, ?_⟩
      have he : p.1 - n = (p.1 - (n + 1)) + 1 := by omega
      rw [he, List.getD_cons_succ]
      exact h4

theorem mem_enum_getD {α : Type} (d : α) (l : List α) (p : Nat × α)
    (hp : p ∈ l.enum) : p.1 < l.length ∧ l.getD p.1 d = p.2 := by
  have h := mem_enumFrom_getD d l 0 p (by simpa [List.enum] using hp)
  simpa using h.2

theorem enumFrom_pairwise_lt {α : Type} :
    ∀ (l : List α) (n : Nat), (List.enumFrom n l).Pairwise (fun a b => a.1 < b.1) := by
  intro l
  induction l with
  | nil => intro n; simp [List.enumFrom]
  | cons a t ih =>
    intro n
    rw [List.enumFrom]
    refine List.pairwise_cons.mpr ⟨?_, ih (n + 1)⟩
    intro p hp
    have h := (mem_enumFrom_getD a t (n + 1) p hp).1
    omega

theorem enum_pairwise_lt {α : Type} (l : List α) :
    l.enum.Pairwise (fun a b => a.1 < b.1) := by
  have h := enumFrom_pairwise_lt l 0
  simpa [List.enum] using h

/-! ### The result loop of `search_vector_store` -/

theorem getD_map_eq {α β : Type} (f : α → β) (l : List α) (i : Nat)
    (dα : α) (dβ : β) (h : i < l.length) :
    (l.map f).getD i dβ = f (l.getD i dα) := by
  rw [List.getD_eq_getElem (l.map f) dβ (by simpa using h), List.getD_eq_getElem l dα h]
  simp

theorem pyGet_natCast (chunks : List Str) (j : Nat) (h : j < chunks.length) :
    pyGet chunks (j : Int) = some (chunks.getD j []) := by
  unfold pyGet
  rw [if_pos (Int.natCast_nonneg j)]
  rw [Int.toNat_natCast]
  rw [List.get?_eq_getElem?, List.getElem?_eq_getElem h, List.getD_eq_getElem chunks [] h]

theorem buildResults_map (chunks : List Str) :
    ∀ hits : List (Nat × ℚ), (∀ p ∈ hits, p.1 < chunks.length) →
      buildResults chunks (hits.map (fun p => ((p.1 : Int), p.2)))
        = hits.map (fun p => (chunks.getD p.1 [], p.2)) := by
  intro hits
  induction hits with
  | nil => intro _; rfl
  | cons hd t ih =>
    intro hall
    obtain ⟨i, s⟩ := hd
    have h1 : i < chunks.length := hall (i, s) (List.mem_cons_self _ _)
    simp only [List.map_cons]
    unfold buildResults
    rw [if_pos (by exact_mod_cast h1)]
    rw [pyGet_natCast chunks i h1]
    rw [ih (fun p hp => hall p (List.mem_cons_of_mem _ hp))]

theorem buildResults_sound (chunks : List Str) :
    ∀ raw : List (Int × ℚ), ∀ p ∈ buildResults chunks raw,
      ∃ i : Int, (i, p.2) ∈ raw ∧ i < (chunks.length : Int) ∧
        pyGet chunks i = some p.1 := by
  intro raw
  induction raw with
  | nil => intro p hp; simp [buildResults] at hp
  | cons hd t ih =>
    intro p hp
    obtain ⟨i, d⟩ := hd
    unfold buildResults at hp
    split at hp
    · rename_i hlt
      split at hp
      · rename_i c hg
        rcases List.mem_cons.mp hp with h1 | h1
        · subst h1
          exact ⟨i, List.mem_cons_self _ _, hlt, hg⟩
        · obtain ⟨j, hj1, hj2, hj3⟩ := ih p h1
          exact ⟨j, List.mem_cons_of_mem _ hj1, hj2, hj3⟩
      · obtain ⟨j, hj1, hj2, hj3⟩ := ih p hp
        exact ⟨j, List.mem_cons_of_mem _ hj1, hj2, hj3⟩
    · obtain ⟨j, hj1, hj2, hj3⟩ := ih p hp
      exact ⟨j, List.mem_cons_of_mem _ hj1, hj2, hj3⟩

theorem faissSearch_mem_nat (vecs : List (List ℚ)) (q : List ℚ) (k : Nat)
    (hk : k ≤ vecs.length) :
    ∀ x ∈ faissSearch vecs q k,
      ∃ p : Nat × ℚ, x = ((p.1 : Int), p.2) ∧ p.1 < vecs.length := by
  intro x hx
  unfold faissSearch at hx
  rw [Nat.sub_eq_zero_of_le hk, List.replicate_zero, List.append_nil] at hx
  obtain ⟨p, hp, rfl⟩ := List.mem_map.mp hx
  refine ⟨p, rfl, ?_⟩
  have hp2 : p ∈ rankSort ((vecs.map (fun v => dot q v)).enum) := List.mem_of_mem_take hp
  have hp3 : p ∈ (vecs.map (fun v => dot q v)).enum := (rankSort_perm _).mem_iff.mp hp2
  have h := (mem_enum_getD (0 : ℚ) _ p hp3).1
  simpa using h

/-- Claim C4: for every non-blank query against a store built by
`create_vector_store` from a chunk list, `search_vector_store` returns
exactly `min(top_k, n)` results, and there is an underlying selection of
stored positions, all in range, presenting the results in non-increasing
score order with ties resolved towards the earlier chunk. -/
theorem C4_search_count_and_order (embed : Str → List ℚ) (chunks : List Str)
    (query : Str) (top_k : Nat) (index : List (List ℚ)) (outChunks : List Str)
    (hq : pyStrip query ≠ [])
    (hcreate : create_vector_store embed chunks = Except.ok (index, outChunks)) :
    (search_vector_store embed index outChunks query top_k).length
        = min top_k chunks.length ∧
    ∃ sel : List Nat,
      search_vector_store embed index outChunks query top_k
        = sel.map (fun i => (outChunks.getD i [],
            dot (embed query) (index.getD i []))) ∧
      (∀ i ∈ sel, i < chunks.length) ∧
      sel.Pairwise (fun i j =>
        dot (embed query) (index.getD j []) < dot (embed query) (index.getD i [])
        ∨ (dot (embed query) (index.getD i []) = dot (embed query) (index.getD j [])
            ∧ i < j)) := by
  unfold create_vector_store at hcreate
  split at hcreate
  · cases hcreate
  injection hcreate with hpair
  injection hpair with hidx hchk
  subst hidx
  subst hchk
  unfold search_vector_store
  rw [if_neg hq]
  unfold faissSearch
  have hkn : min top_k chunks.length ≤ (chunks.map embed).length := by
    rw [List.length_map]
    exact min_le_right _ _
  rw [Nat.sub_eq_zero_of_le hkn, List.replicate_zero, List.append_nil]
  have hmemhits : ∀ p ∈ (rankSort (((chunks.map embed).map
        (fun v => dot (embed query) v)).enum)).take (min top_k chunks.length),
      p.1 < chunks.length ∧ dot (embed query) ((chunks.map embed).getD p.1 []) = p.2 := by
    intro p hp
    have hp3 := (rankSort_perm _).mem_iff.mp (List.mem_of_mem_take hp)
    have h := mem_enum_getD (0 : ℚ) _ p hp3
    have h1 : p.1 < chunks.length := by
      have := h.1
      simpa using this
    refine ⟨h1, ?_⟩
    rw [← h.2]
    rw [getD_map_eq (fun v => dot (embed query) v) (chunks.map embed) p.1 [] 0
      (by simpa using h1)]
  rw [buildResults_map chunks _ (fun p hp => (hmemhits p hp).1)]
  constructor
  · rw [List.length_map, List.length_take, (rankSort_perm _).length_eq]
    simp only [List.enum_length, List.length_map]
    omega
  · refine ⟨((rankSort (((chunks.map embed).map
        (fun v => dot (embed query) v)).enum)).take (min top_k chunks.length)).map
          Prod.fst, ?_, ?_, ?_⟩
    · calc List.map (fun p => (chunks.getD p.1 [], p.2))
            ((rankSort (((chunks.map embed).map
              (fun v => dot (embed query) v)).enum)).take (min top_k chunks.length))
          = List.map ((fun i => (chunks.getD i [],
              dot (embed query) ((chunks.map embed).getD i []))) ∘ Prod.fst)
            ((rankSort (((chunks.map embed).map
              (fun v => dot (embed query) v)).enum)).take (min top_k chunks.length)) := by
            apply List.map_congr_left
            intro p hp
            have h := hmemhits p hp
            simp only [Function.comp]
            rw [h.2]
        _ = _ := (List.map_map _ _ _).symm
    · intro i hi
      obtain ⟨p, hp, rfl⟩ := List.mem_map.mp hi
      exact (hmemhits p hp).1
    · rw [List.pairwise_map]
      have hpw1 : ((rankSort (((chunks.map embed).map
            (fun v => dot (embed query) v)).enum)).take
              (min top_k chunks.length)).Pairwise rankLE :=
        (rankSort_pairwise _).sublist (List.take_sublist _ _)
      have hpw2 : ((rankSort (((chunks.map embed).map
            (fun v => dot (embed query) v)).enum)).take
              (min top_k chunks.length)).Pairwise (fun a b => a.1 ≠ b.1) := by
        have he : (((chunks.map embed).map
            (fun v => dot (embed query) v)).enum).Pairwise (fun a b => a.1 ≠ b.1) :=
          (enum_pairwise_lt _).imp (fun h => Nat.ne_of_lt h)
        have hsymm : Symmetric (fun a b : Nat × ℚ => a.1 ≠ b.1) :=
          fun _ _ h => h.symm
        have hsorted := ((rankSort_perm _).pairwise_iff @hsymm).mpr he
        exact hsorted.sublist (List.take_sublist _ _)
      refine List.Pairwise.imp_of_mem ?_ (hpw1.and hpw2)
      intro a b ha hb hab
      obtain ⟨hle, hne⟩ := hab
      rw [(hmemhits a ha).2, (hmemhits b hb).2]
      unfold rankLE at hle
      rcases hle with h | ⟨he, hl⟩
      · exact Or.inl h
      · exact Or.inr ⟨he, lt_of_le_of_ne hl hne⟩

/-- Witness for C4, instantiating the count component on a concrete
two-chunk store with `top_k = 1`. -/
theorem C4_witness :
    (search_vector_store (fun _ => []) [[], []] [['a'], ['b']] ['q'] 1).length
      = min 1 ([['a'], ['b']] : List Str).length :=
  (C4_search_count_and_order (fun _ => []) [['a'], ['b']] ['q'] 1
    [[], []] [['a'], ['b']] (by decide) rfl).1

/-- Counterexample to claim C1 as stated: searching a one-vector index
against a three-entry chunk list (the stale-store scenario the spec's
bound check is said to guard) with `top_k = 2` makes FAISS return the
sentinel `(-1, -FLT_MAX)`; the guard `idx < len(chunks)` does NOT
discard it — Python's negative indexing resolves `chunks[-1]` to the
LAST chunk, so the search returns two results instead of one. -/
theorem C1_cex_sentinel_resolved :
    faissSearch [[]] [] (min 2 3)
      = [((0 : Int), (0 : ℚ)), ((-1 : Int), faissMissingScore)] ∧
    search_vector_store (fun _ => []) [[]] [['a'], ['b'], ['c']] ['q'] 2
      = [(['a'], (0 : ℚ)), (['c'], faissMissingScore)] := by
  constructor
  · decide
  · decide

/-- Claim C1 amended: every returned pair comes from a raw result index
`i` with `i < len(chunks)` resolved by Python subscription — indices
`≥ len(chunks)` are discarded, but negative sentinel indices are NOT:
they resolve to chunks counted from the end.  When the searched index
and chunk list are from the same build (vector count = chunk count),
every returned pair does come from an in-range position
`0 ≤ i < len(chunks)`. -/
theorem C1_search_index_provenance (embed : Str → List ℚ) (index : List (List ℚ))
    (chunks : List Str) (query : Str) (top_k : Nat) :
    (∀ p ∈ search_vector_store embed index chunks query top_k,
      ∃ i : Int, (i, p.2) ∈ faissSearch index (embed query) (min top_k chunks.length) ∧
        i < (chunks.length : Int) ∧ pyGet chunks i = some p.1) ∧
    (index.length = chunks.length →
      ∀ p ∈ search_vector_store embed index chunks query top_k,
        ∃ j : Nat, j < chunks.length ∧ chunks.getD j [] = p.1 ∧
          ((j : Int), p.2) ∈ faissSearch index (embed query) (min top_k chunks.length)) := by
  constructor
  · intro p hp
    unfold search_vector_store at hp
    by_cases hq : pyStrip query = []
    · rw [if_pos hq] at hp; simp at hp
    · rw [if_neg hq] at hp
      exact buildResults_sound chunks _ p hp
  · intro hlen p hp
    unfold search_vector_store at hp
    by_cases hq : pyStrip query = []
    · rw [if_pos hq] at hp; simp at hp
    · rw [if_neg hq] at hp
      obtain ⟨i, hi1, hi2, hi3⟩ := buildResults_sound chunks _ p hp
      have hk : min top_k chunks.length ≤ index.length := by
        rw [hlen]; exact min_le_right _ _
      obtain ⟨pr, hpr1, hpr2⟩ := faissSearch_mem_nat index (embed query) _ hk (i, p.2) hi1
      have e1 : i = (pr.1 : Int) := congrArg Prod.fst hpr1
      have hlt : pr.1 < chunks.length := by rw [← hlen]; exact hpr2
      refine ⟨pr.1, hlt, ?_, ?_⟩
      · rw [e1, pyGet_natCast chunks pr.1 hlt] at hi3
        simpa using hi3
      · rw [e1] at hi1
        exact hi1

/-- Witness for the amended C1 on a concrete matched store. -/
theorem C1_witness :
    ∃ i : Int, (i, (0 : ℚ)) ∈ faissSearch [[]] [] (min 1 1) ∧
      i < (([['a']] : List Str).length : Int) ∧ pyGet [['a']] i = some ['a'] :=
  (C1_search_index_provenance (fun _ => []) [[]] [['a']] ['q'] 1).1
    (['a'], 0) (by decide)

/-! ### Context assembly (claim C3) -/

theorem sublistSeg_trans {α : Type} {a b c : List α}
    (h1 : sublistSeg a b) (h2 : sublistSeg b c) : sublistSeg a c := by
  obtain ⟨u1, v1, e1⟩ := h1
  obtain ⟨u2, v2, e2⟩ := h2
  exact ⟨u2 ++ u1, v1 ++ v2, by rw [e2, e1]; simp [List.append_assoc]⟩

theorem sublistSeg_of_mem_pyJoin (sep : Str) :
    ∀ (parts : List Str) (x : Str), x ∈ parts → sublistSeg x (pyJoin sep parts) := by
  intro parts
  induction parts with
  | nil => intro x hx; simp at hx
  | cons s rest ih =>
    intro x hx
    rcases List.mem_cons.mp hx with h1 | h1
    · subst h1
      cases rest with
      | nil => exact ⟨[], [], by simp [pyJoin]⟩
      | cons b bs => exact ⟨[], sep ++ pyJoin sep (b :: bs), by simp [pyJoin]⟩
    · cases rest with
      | nil => simp at h1
      | cons b bs =>
        obtain ⟨u, v, huv⟩ := ih x h1
        exact ⟨s ++ sep ++ u, v, by simp [pyJoin, huv]⟩

theorem fmtPart_contains_chunk (i : Nat) (c : Str) (s : ℚ) :
    sublistSeg c (fmtPart i c s) :=
  ⟨("[Relevant Section ").data ++ (Nat.repr i).data ++ ("] (Relevance: ").data
      ++ format2f s ++ [')', '\n'], [],
    by simp [fmtPart]⟩

theorem fmtPart_ne_nil (i : Nat) (c : Str) (s : ℚ) : fmtPart i c s ≠ [] := by
  unfold fmtPart
  rw [show ("[Relevant Section ").data = '[' :: ("Relevant Section ").data from rfl]
  simp

theorem mem_contextParts :
    ∀ (l : List (Str × ℚ)) (start : Nat) (p : Str × ℚ), p ∈ l →
      ∃ j, fmtPart j p.1 p.2 ∈ contextParts start l := by
  intro l
  induction l with
  | nil => intro start p hp; simp at hp
  | cons hd t ih =>
    intro start p hp
    obtain ⟨c, s⟩ := hd
    rcases List.mem_cons.mp hp with h1 | h1
    · subst h1
      exact ⟨start, by unfold contextParts; exact List.mem_cons_self _ _⟩
    · obtain ⟨j, hj⟩ := ih (start + 1) p h1
      exact ⟨j, by unfold contextParts; exact List.mem_cons_of_mem _ hj⟩

theorem contextParts_eq :
    ∀ (l : List (Str × ℚ)) (start : Nat),
      contextParts start l
        = (List.enumFrom start l).map (fun p => fmtPart p.1 p.2.1 p.2.2) := by
  intro l
  induction l with
  | nil => intro start; rfl
  | cons hd t ih =>
    intro start
    obtain ⟨c, s⟩ := hd
    rw [show List.enumFrom start ((c, s) :: t)
      = (start, (c, s)) :: List.enumFrom (start + 1) t from rfl]
    unfold contextParts
    rw [List.map_cons, ih (start + 1)]

theorem pyJoin_cons_ne_nil (sep x : Str) (xs : List Str) (hx : x ≠ []) :
    pyJoin sep (x :: xs) ≠ [] := by
  cases xs with
  | nil => simpa [pyJoin] using hx
  | cons b bs => simp [pyJoin, hx]

/-- The three observable properties of the filter-then-format assembly,
stated for an arbitrary retrieved result list. -/
theorem contextAssemble_spec (results : List (Str × ℚ)) (ms : ℚ) :
    ((if results.filter (fun p => ms ≤ p.2) = [] then ([] : Str)
        else pyJoin ctxDelim (contextParts 1 (results.filter (fun p => ms ≤ p.2)))) = []
      ↔ ∀ p ∈ results, p.2 < ms) ∧
    (results.filter (fun p => ms ≤ p.2) ≠ [] →
      (if results.filter (fun p => ms ≤ p.2) = [] then ([] : Str)
        else pyJoin ctxDelim (contextParts 1 (results.filter (fun p => ms ≤ p.2))))
      = pyJoin ctxDelim ((List.enumFrom 1 (results.filter (fun p => ms ≤ p.2))).map
          (fun p => fmtPart p.1 p.2.1 p.2.2))) ∧
    (∀ p ∈ results.filter (fun p => ms ≤ p.2),
      sublistSeg p.1
        (if results.filter (fun p => ms ≤ p.2) = [] then ([] : Str)
          else pyJoin ctxDelim (contextParts 1 (results.filter (fun p => ms ≤ p.2))))) := by
  refine ⟨?_, ?_, ?_⟩
  · by_cases hf : results.filter (fun p => ms ≤ p.2) = []
    · rw [if_pos hf]
      simp only [List.filter_eq_nil_iff, decide_eq_true_eq] at hf
      exact iff_of_true rfl (fun p hp => not_le.mp (hf p hp))
    · rw [if_neg hf]
      refine iff_of_false ?_ ?_
      · cases hc : results.filter (fun p => ms ≤ p.2) with
        | nil => exact absurd hc hf
        | cons a t =>
          obtain ⟨c, s⟩ := a
          unfold contextParts
          exact pyJoin_cons_ne_nil _ _ _ (fmtPart_ne_nil 1 c s)
      · intro hall
        obtain ⟨p, hp⟩ := List.exists_mem_of_ne_nil _ hf
        obtain ⟨hp1, hp2⟩ := List.mem_filter.mp hp
        have h2 : ms ≤ p.2 := by simpa using hp2
        exact absurd (hall p hp1) (not_lt.mpr h2)
  · intro hf
    rw [if_neg hf, contextParts_eq]
  · intro p hp
    have hf : results.filter (fun p => ms ≤ p.2) ≠ [] := List.ne_nil_of_mem hp
    rw [if_neg hf]
    obtain ⟨j, hj⟩ := mem_contextParts _ 1 p hp
    exact sublistSeg_trans (fmtPart_contains_chunk j p.1 p.2)
      (sublistSeg_of_mem_pyJoin ctxDelim _ _ hj)

/-- Claim C3: `get_context_for_query` returns the empty string exactly
when every retrieved candidate scores strictly below `min_similarity`;
otherwise it is the fixed-delimiter join of the surviving candidates in
ranked order, each formatted with its 1-based rank and rounded score,
and it contains the text of every surviving candidate. -/
theorem C3_get_context_characterization (embed : Str → List ℚ) (index : List (List ℚ))
    (chunks : List Str) (query : Str) (top_k : Nat) (min_similarity : ℚ) :
    (get_context_for_query embed index chunks query top_k min_similarity = []
      ↔ ∀ p ∈ search_vector_store embed index chunks query top_k,
          p.2 < min_similarity) ∧
    ((search_vector_store embed index chunks query top_k).filter
        (fun p => min_similarity ≤ p.2) ≠ [] →
      get_context_for_query embed index chunks query top_k min_similarity
        = pyJoin ctxDelim ((List.enumFrom 1
            ((search_vector_store embed index chunks query top_k).filter
              (fun p => min_similarity ≤ p.2))).map
            (fun p => fmtPart p.1 p.2.1 p.2.2))) ∧
    (∀ p ∈ (search_vector_store embed index chunks query top_k).filter
        (fun p => min_similarity ≤ p.2),
      sublistSeg p.1
        (get_context_for_query embed index chunks query top_k min_similarity)) := by
  have hctx : get_context_for_query embed index chunks query top_k min_similarity
      = if (search_vector_store embed index chunks query top_k).filter
            (fun p => min_similarity ≤ p.2) = [] then ([] : Str)
        else pyJoin ctxDelim (contextParts 1
          ((search_vector_store embed index chunks query top_k).filter
            (fun p => min_similarity ≤ p.2))) := rfl
  rw [hctx]
  exact contextAssemble_spec (search_vector_store embed index chunks query top_k)
    min_similarity

/-- Witness for C3 on a concrete store where one candidate survives
the threshold. -/
theorem C3_witness :
    sublistSeg ['a'] (get_context_for_query (fun _ => []) [[]] [['a']] ['q'] 1 0) :=
  (C3_get_context_characterization (fun _ => []) [[]] [['a']] ['q'] 1 0).2.2
    (['a'], 0) (by decide)

end Meetbuddy
